import Mathlib

set_option maxHeartbeats 1000000

/-
Verification development for the Markdown batch injector
(src/add_knowledge_remaining.py) and the line formatter specified next to it.
Document text is modelled as List Char; the Python regex
r'(## [^#\n]+[^#]\n)' is embedded as an explicit leftmost, greedy
backtracking matcher, exactly the semantics of re.search on this pattern.
-/

/-- Character class of the regex atom excluding hash and newline,
the class written as a negated set with hash and newline in the source pattern. -/
def notHashNl (c : Char) : Bool := !(c == '#') && !(c == '\n')

/-- Character class of the regex atom excluding only hash. -/
def notHash (c : Char) : Bool := !(c == '#')

/-- Matcher for the pattern tail after the mandatory first title character:
zero or more title characters, then one non-hash character, then a newline.
Greedy with backtracking, preferring the longest title run first, exactly as
the Python regex engine tries the quantifier.  Returns the number of
characters consumed. -/
def matchTail : List Char → Option Nat
  | c1 :: c2 :: rest =>
    if notHashNl c1 then
      match matchTail (c2 :: rest) with
      | some n => some (n + 1)
      | none => if notHash c1 && c2 == '\n' then some 2 else none
    else if notHash c1 && c2 == '\n' then some 2 else none
  | _ => none

/-- Matcher for the whole pattern at the head of the list: literal
hash, hash, space, then at least one title character, then the tail.
Returns the length of the match, following the engine's greedy choice. -/
def matchAt : List Char → Option Nat
  | '#' :: '#' :: ' ' :: c :: rest =>
    if notHashNl c then (matchTail rest).map (· + 4) else none
  | _ => none

/-- Scan for the leftmost position where the pattern matches, returning the
end offset of the match (the value Python calls match.end()). -/
def reSearchAux (i : Nat) : List Char → Option Nat
  | [] => none
  | c :: t =>
    match matchAt (c :: t) with
    | some n => some (i + n)
    | none => reSearchAux (i + 1) t

/-- Leftmost search over the whole text, as re.search does. -/
def reSearch (s : List Char) : Option Nat := reSearchAux 0 s

/-- The literal marker string tested with the Python substring operator
at line 32 of the source. -/
def marker : List Char := "### 🆔 Знание Других Агентов".data

/-- Decides whether the first list occurs at the head of the second,
the auxiliary step of the substring test. -/
def prefixAt : List Char → List Char → Bool
  | [], _ => true
  | _ :: _, [] => false
  | a :: as, b :: bs => a == b && prefixAt as bs

/-- Decides whether the first list occurs as a contiguous substring of the
second, the semantics of the Python expression marker in content. -/
def containsSub (n : List Char) : List Char → Bool
  | [] => prefixAt n []
  | h@(_ :: t) => prefixAt n h || containsSub n t

/-- Template text before the first agent-name placeholder.  The marker is a
literal segment right after the leading newline, exactly as in the f-string
at lines 45-77 of the source (braces written literally, escapes resolved). -/
def tmplA : List Char :=
  '\n' :: (marker ++ ("\n\n**Знает и Взаимодействует С:**\n- `vibe-lead (👑) - получаю от него координацию`\n- `vibe-spec (📋) - могу использовать его спецификации`\n- `vibe-tasker (✅) - получаю планирование от него`\n- `vibe-coder (💻) - взаимодействую с его кодом`\n- `vibe-tester (🧪) - могу использовать его тесты`\n- `vibe-critic (🎭) - получаю feedback по работе`\n\n**Получает Задачи От:**\n- `vibe-lead (👑) - получаю основные задачи`\n- `vibe-queen (🐝) - могу получить задачи от главного координатора`\n- Другие агенты могут взаимодействовать со мной\n\n**Пример Взаимодействия:**\n```typescript\n// Запуск с resume для продолжения контекста\nTask(\x7b\n  subagent_type: \x27").data)

/-- Template text between the first and the second placeholder. -/
def tmplB : List Char := "\x27,\n  description: \x27задача для ".data

/-- Template text between the second and the third placeholder. -/
def tmplC : List Char :=
  "\x27,\n  prompt: \x27Детали задачи...\x27,\n  resume: \x27previous-agent-id\x27  // Продолжает работу предыдущего агента\n\x7d);\n\n// Получение agentId для последующего использования\nconst agentId = await Task(\x7b\n  subagent_type: \x27".data

/-- Template text after the third placeholder, through the closing fence
and the final newline of the f-string. -/
def tmplD : List Char := "\x27,\n  description: \x27Начать работу\x27\n\x7d);\n```\n".data

/-- The rendered knowledge section: the fixed template with the agent name
substituted into each of its three placeholder occurrences. -/
def knowledge_section (agent_name : List Char) : List Char :=
  tmplA ++ agent_name ++ tmplB ++ agent_name ++ tmplC ++ agent_name ++ tmplD

/-- Diagnostic text printed when the marker is already present
(line 33 of the source, after the file-path prefix). -/
def msg_already : List Char := "секция уже существует".data

/-- Diagnostic text printed when no insertion place is found
(line 41 of the source, after the file-path prefix). -/
def msg_no_place : List Char := "не найдено место для вставки".data

/-- Diagnostic text printed when the section was inserted
(line 86 of the source, after the file-path prefix). -/
def msg_added : List Char := "добавлена секция знания".data

/-- Observable outcome of one injector call: the resulting file content,
the boolean the Python function returns, and the diagnostic line it prints. -/
structure InjectResult where
  text : List Char
  inserted : Bool
  msg : List Char
deriving DecidableEq

/-- The injector, function add_knowledge_section of the source, with the
file read and write replaced by content in and content out: marker guard
first, then the regex scan, then the splice at the match end. -/
def add_knowledge_section (content agent_name : List Char) : InjectResult :=
  if containsSub marker content then
    ⟨content, false, msg_already⟩
  else
    match reSearch content with
    | none => ⟨content, false, msg_no_place⟩
    | some insert_pos =>
      ⟨content.take insert_pos ++ knowledge_section agent_name ++ content.drop insert_pos,
       true, msg_added⟩

/-- Agent-name derivation filename.replace between the literal dot-md and
the empty string: removes every (left-to-right, non-overlapping) occurrence. -/
def stripMd : List Char → List Char
  | '.' :: 'm' :: 'd' :: t => stripMd t
  | c :: t => c :: stripMd t
  | [] => []

/-- One candidate document of the batch: its file name and, when the file
exists, its current content. -/
structure FileEntry where
  name : List Char
  content : Option (List Char)
deriving DecidableEq

/-- The fixed candidate list iterated by main (lines 10-23 of the source). -/
def REMAINING_AGENTS : List (List Char) :=
  ["vibe-elizaos.md".data, "vibe-ai-llm.md".data, "vibe-mcp.md".data,
   "vibe-sentry.md".data, "vibe-langfuse.md".data, "vibe-roi.md".data,
   "vibe-updater.md".data, "vibe-knowledge-keeper.md".data,
   "vibe-diagnostics.md".data, "vibe-learn.md".data, "vibe-queen.md".data,
   "vibe-cicd.md".data]

/-- The batch loop of main (lines 95-100): missing files are skipped, the
injector runs on each existing file, the new text is written back only when
it reports an insertion, and the counter grows exactly on insertions. -/
def runBatch (acc : Nat) : List FileEntry → List FileEntry × Nat
  | [] => ([], acc)
  | e :: rest =>
    match e.content with
    | none =>
      let p := runBatch acc rest
      (e :: p.1, p.2)
    | some c =>
      let r := add_knowledge_section c (stripMd e.name)
      if r.inserted then
        let p := runBatch (acc + 1) rest
        (⟨e.name, some r.text⟩ :: p.1, p.2)
      else
        let p := runBatch acc rest
        (e :: p.1, p.2)

/-- The batch driver main, generalized over the candidate file list as the
specification directs, starting the success counter at zero. -/
def mainBatch (files : List FileEntry) : List FileEntry × Nat := runBatch 0 files

/-- Modelled from the spec: the per-document outcome the batch contract
describes, written from the words of section 6 — persist the returned text
exactly when inserted is true, otherwise leave the document untouched. -/
def specBatchStep (e : FileEntry) : FileEntry :=
  match e.content with
  | none => e
  | some c =>
    let r := add_knowledge_section c (stripMd e.name)
    if r.inserted then ⟨e.name, some r.text⟩ else e

/-- Modelled from the spec: the reported count the batch contract describes,
the number of documents whose injection returned true. -/
def specInsertCount (files : List FileEntry) : Nat :=
  files.countP fun e =>
    match e.content with
    | none => false
    | some c => (add_knowledge_section c (stripMd e.name)).inserted

/-- Whitespace test used by the formatter model and the heading predicates. -/
def isWs (c : Char) : Bool := c == ' ' || c == '\t'

/-- A line is blank exactly when its trimmed form is empty. -/
def isBlank (l : List Char) : Bool := l.all isWs

/-- Modelled from the spec: a level-2 ATX heading line per section 4.2 —
two hashes, then whitespace, then a non-empty title; a line starting with
three hashes fails the whitespace test and is excluded. -/
def isLevel2Heading (l : List Char) : Bool :=
  match l with
  | '#' :: '#' :: c :: rest => isWs c && !(((c :: rest).dropWhile isWs).isEmpty)
  | _ => false

/-- Splitter on newline characters, returning the first line and the
remaining lines; total and structural. -/
def splitNLx : List Char → List Char × List (List Char)
  | [] => ([], [])
  | c :: t =>
    let p := splitNLx t
    if c = '\n' then ([], p.1 :: p.2) else (c :: p.1, p.2)

/-- Ordered sequence of lines of a text, split on newline boundaries,
preserving empty lines; always non-empty. -/
def splitNL (t : List Char) : List (List Char) := (splitNLx t).1 :: (splitNLx t).2

/-- Join lines back with newline separators. -/
def joinNL : List (List Char) → List Char
  | [] => []
  | l :: ls =>
    match ls with
    | [] => l
    | _ :: _ => l ++ '\n' :: joinNL ls

/-- Modelled from the spec: offset scan for the first level-2 heading line,
accumulating the character offset just past each line's trailing newline. -/
def specAnchorLinesAux (ofs : Nat) : List (List Char) → Option Nat
  | [] => none
  | l :: rest =>
    if isLevel2Heading l then some (ofs + l.length + 1)
    else specAnchorLinesAux (ofs + l.length + 1) rest

/-- Modelled from the spec: the insertion offset section 4.2 describes, the
character offset immediately after the trailing newline of the first
level-2 heading line of the document. -/
def specAnchorEnd (t : List Char) : Option Nat := specAnchorLinesAux 0 (splitNL t)

/-- Modelled from the spec: ATX heading recognition of section 4.1, the
formatter source being absent from the repository snapshot.  Counts leading
hashes; a heading has one to six of them followed by a whitespace
character; returns the level. -/
def headLevelAux (k : Nat) : List Char → Option Nat
  | [] => none
  | c :: t =>
    if c = '#' then headLevelAux (k + 1) t
    else if 1 ≤ k ∧ k ≤ 6 ∧ isWs c = true then some k else none

/-- Modelled from the spec: a line is an ATX heading when the hash-count
scan succeeds. -/
def isHeading (l : List Char) : Bool := (headLevelAux 0 l).isSome

/-- Modelled from the spec: a heading of level one to three, the levels
that receive a preceding blank line in step 2c of the formatter. -/
def isHeading13 (l : List Char) : Bool :=
  match headLevelAux 0 l with
  | some k => decide (k ≤ 3)
  | none => false

/-- Modelled from the spec: step 2b of the formatter — collapse every run
of two or more consecutive whitespace characters to a single space, leaving
lone whitespace characters untouched. -/
def collapseWs : List Char → List Char
  | [] => []
  | c :: t =>
    if isWs c && t.head?.any isWs then ' ' :: collapseWs (t.dropWhile isWs)
    else c :: collapseWs t
termination_by l => l.length
decreasing_by
  · exact Nat.lt_succ_of_le (List.dropWhile_sublist isWs).length_le
  · exact Nat.lt_succ_self _

/-- Modelled from the spec: the run-collapsing half of step 2a — every
maximal whitespace run of a heading line becomes a single space. -/
def collapseWsAll : List Char → List Char
  | [] => []
  | c :: t =>
    if isWs c then ' ' :: collapseWsAll (t.dropWhile isWs)
    else c :: collapseWsAll t
termination_by l => l.length
decreasing_by
  · exact Nat.lt_succ_of_le (List.dropWhile_sublist isWs).length_le
  · exact Nat.lt_succ_self _

/-- Modelled from the spec: removal of trailing whitespace, the right half
of the trim of step 2a. -/
def trimRight : List Char → List Char
  | [] => []
  | c :: t =>
    match trimRight t with
    | [] => if isWs c then [] else [c]
    | x :: xs => c :: x :: xs

/-- Modelled from the spec: trim of leading and trailing whitespace. -/
def trimWs (l : List Char) : List Char := trimRight (l.dropWhile isWs)

/-- Modelled from the spec: the per-line rewrite, steps 2a and 2b — heading
lines get all whitespace runs collapsed and are trimmed, then the pairwise
run collapse applies to every line. -/
def normLine (l : List Char) : List Char :=
  collapseWs (if isHeading l then trimWs (collapseWsAll l) else l)

/-- Modelled from the spec: the first pass of the formatter, steps 2a-2d —
rewrite each line, and emit one blank line before a level-1-to-3 heading
whose previously emitted line is non-blank; the flag carries whether the
previously emitted line was blank, initially treated as blank. -/
def pass1 (lastBlank : Bool) : List (List Char) → List (List Char)
  | [] => []
  | l :: rest =>
    let m := normLine l
    if isHeading13 m && !lastBlank then
      [] :: m :: pass1 (isBlank m) rest
    else
      m :: pass1 (isBlank m) rest

/-- Modelled from the spec: the second pass, step 3 — drop a blank line
whose immediately preceding kept line was also blank; the flag carries the
blankness of the previously kept line, initially false. -/
def collapseBlanks (lastBlank : Bool) : List (List Char) → List (List Char)
  | [] => []
  | l :: rest =>
    if isBlank l && lastBlank then collapseBlanks lastBlank rest
    else l :: collapseBlanks (isBlank l) rest

/-- Modelled from the spec: the formatter contract format of section 4.1,
split, two passes, join; total on every input by construction. -/
def format (t : List Char) : List Char :=
  joinNL (collapseBlanks false (pass1 true (splitNL t)))

/-- Fixed-point test for the first pass: holds when no blank-line insertion
would fire anywhere along the list, given the incoming blankness flag. -/
def pass1Fixed (b : Bool) : List (List Char) → Bool
  | [] => true
  | l :: rest => (!(isHeading13 l) || b) && pass1Fixed (isBlank l) rest

/-- Fixed-point test for the second pass: holds when no line would be
dropped, given the incoming blankness flag. -/
def collapseFixed (b : Bool) : List (List Char) → Bool
  | [] => true
  | l :: rest => !(isBlank l && b) && collapseFixed (isBlank l) rest

/-- Absence of two adjacent whitespace characters in a line. -/
def noTwoWs : List Char → Bool
  | [] => true
  | [_] => true
  | c1 :: c2 :: rest => !(isWs c1 && isWs c2) && noTwoWs (c2 :: rest)

lemma prefixAt_self_append (n s : List Char) : prefixAt n (n ++ s) = true := by
  induction n with
  | nil => rfl
  | cons a as ih => simp [prefixAt, ih]

lemma prefixAt_append (n : List Char) : ∀ (h s : List Char),
    prefixAt n h = true → prefixAt n (h ++ s) = true := by
  induction n with
  | nil => intro h s _; rfl
  | cons a as ih =>
    intro h s hp
    cases h with
    | nil => simp [prefixAt] at hp
    | cons b bs =>
      simp only [prefixAt, Bool.and_eq_true] at hp ⊢
      exact ⟨hp.1, ih bs s hp.2⟩

lemma containsSub_nil_left : ∀ s : List Char, containsSub [] s = true := by
  intro s
  cases s with
  | nil => rfl
  | cons c t => simp [containsSub, prefixAt]

lemma containsSub_of_prefixAt (n h : List Char) (hp : prefixAt n h = true) :
    containsSub n h = true := by
  cases h with
  | nil => simpa [containsSub] using hp
  | cons c t => simp [containsSub, hp]

lemma containsSub_cons (n : List Char) (c : Char) (h : List Char)
    (hh : containsSub n h = true) : containsSub n (c :: h) = true := by
  simp [containsSub, hh]

lemma containsSub_append_left (n pre h : List Char)
    (hh : containsSub n h = true) : containsSub n (pre ++ h) = true := by
  induction pre with
  | nil => simpa using hh
  | cons c cs ih => simpa using containsSub_cons n c (cs ++ h) ih

lemma containsSub_append_right (n : List Char) : ∀ (h s : List Char),
    containsSub n h = true → containsSub n (h ++ s) = true := by
  intro h
  induction h with
  | nil =>
    intro s hh
    have hn : n = [] := by
      cases n with
      | nil => rfl
      | cons a as => simp [containsSub, prefixAt] at hh
    subst hn
    simpa using containsSub_nil_left s
  | cons c t ih =>
    intro s hh
    simp only [containsSub, Bool.or_eq_true] at hh
    rcases hh with hp | ht
    · exact containsSub_of_prefixAt n (c :: t ++ s) (prefixAt_append n (c :: t) s hp)
    · simpa [containsSub] using Or.inr (ih s ht)

lemma marker_in_knowledge (nm : List Char) :
    containsSub marker (knowledge_section nm) = true := by
  have h1 : containsSub marker tmplA = true := by
    apply containsSub_cons
    exact containsSub_of_prefixAt _ _ (prefixAt_self_append marker _)
  show containsSub marker
    (tmplA ++ nm ++ tmplB ++ nm ++ tmplC ++ nm ++ tmplD) = true
  have h2 := containsSub_append_right marker tmplA
    (nm ++ tmplB ++ nm ++ tmplC ++ nm ++ tmplD) h1
  simpa [List.append_assoc] using h2

lemma marker_noop (t nm : List Char) (h : containsSub marker t = true) :
    add_knowledge_section t nm = ⟨t, false, msg_already⟩ := by
  simp [add_knowledge_section, h]

lemma inserted_shape (t nm : List Char)
    (h : (add_knowledge_section t nm).inserted = true) :
    containsSub marker t = false ∧ ∃ e, reSearch t = some e ∧
      add_knowledge_section t nm =
        ⟨t.take e ++ knowledge_section nm ++ t.drop e, true, msg_added⟩ := by
  by_cases hm : containsSub marker t = true
  · simp [add_knowledge_section, hm] at h
  · rw [Bool.not_eq_true] at hm
    cases hr : reSearch t with
    | none => simp [add_knowledge_section, hm, hr] at h
    | some e => exact ⟨hm, e, rfl, by simp [add_knowledge_section, hm, hr]⟩

theorem matchTail_spec : ∀ (s : List Char) (n : Nat), matchTail s = some n →
    2 ≤ n ∧ n ≤ s.length ∧ s[n - 1]? = some '\n'
  | [], n => by simp [matchTail]
  | [c], n => by simp [matchTail]
  | c1 :: c2 :: rest, n => by
    intro h
    simp only [matchTail] at h
    by_cases h1 : notHashNl c1 = true
    · rw [if_pos h1] at h
      cases hm : matchTail (c2 :: rest) with
      | some m =>
        rw [hm] at h
        obtain ⟨h2, h3, h4⟩ := matchTail_spec (c2 :: rest) m hm
        have hn : m + 1 = n := by simpa using h
        subst hn
        refine ⟨by omega, by simpa using Nat.succ_le_succ h3, ?_⟩
        have he : m + 1 - 1 = (m - 1) + 1 := by omega
        rw [he, List.getElem?_cons_succ]
        exact h4
      | none =>
        rw [hm] at h
        by_cases h5 : (notHash c1 && (c2 == '\n')) = true
        · rw [if_pos h5] at h
          have hn : 2 = n := by simpa using h
          subst hn
          have hc2 : c2 = '\n' := by
            simp only [Bool.and_eq_true, beq_iff_eq] at h5
            exact h5.2
          subst hc2
          exact ⟨le_refl 2, by simp, by simp⟩
        · rw [if_neg h5] at h; exact absurd h (by simp)
    · rw [if_neg h1] at h
      by_cases h5 : (notHash c1 && (c2 == '\n')) = true
      · rw [if_pos h5] at h
        have hn : 2 = n := by simpa using h
        subst hn
        have hc2 : c2 = '\n' := by
          simp only [Bool.and_eq_true, beq_iff_eq] at h5
          exact h5.2
        subst hc2
        exact ⟨le_refl 2, by simp, by simp⟩
      · rw [if_neg h5] at h; exact absurd h (by simp)

theorem matchAt_spec (s : List Char) (n : Nat) (h : matchAt s = some n) :
    2 ≤ n ∧ n ≤ s.length ∧ s[n - 1]? = some '\n' := by
  rw [matchAt.eq_def] at h
  split at h
  next c rest =>
    split at h
    next h1 =>
      cases hm : matchTail rest with
      | none => rw [hm] at h; simp at h
      | some m =>
        rw [hm] at h
        have hn : m + 4 = n := by simpa using h
        subst hn
        obtain ⟨h2, h3, h4⟩ := matchTail_spec rest m hm
        refine ⟨by omega, by simp only [List.length_cons]; omega, ?_⟩
        have he : m + 4 - 1 = ((((m - 1) + 1) + 1) + 1) + 1 := by omega
        rw [he]
        simp only [List.getElem?_cons_succ]
        exact h4
    next => simp at h
  next => simp at h

theorem reSearchAux_spec : ∀ (s : List Char) (i e : Nat), reSearchAux i s = some e →
    i + 2 ≤ e ∧ e ≤ i + s.length ∧ s[e - i - 1]? = some '\n'
  | [], i, e => by simp [reSearchAux]
  | c :: t, i, e => by
    intro h
    simp only [reSearchAux] at h
    cases hma : matchAt (c :: t) with
    | some m =>
      rw [hma] at h
      have hn : i + m = e := by simpa using h
      subst hn
      obtain ⟨h2, h3, h4⟩ := matchAt_spec (c :: t) m hma
      refine ⟨by omega, by omega, ?_⟩
      have he : i + m - i - 1 = m - 1 := by omega
      rw [he]; exact h4
    | none =>
      rw [hma] at h
      obtain ⟨h2, h3, h4⟩ := reSearchAux_spec t (i + 1) e h
      refine ⟨by omega, by simp only [List.length_cons]; omega, ?_⟩
      have he : e - i - 1 = (e - (i + 1) - 1) + 1 := by omega
      rw [he, List.getElem?_cons_succ]
      exact h4

theorem reSearch_end_newline (t : List Char) (e : Nat) (h : reSearch t = some e) :
    2 ≤ e ∧ e ≤ t.length ∧ t[e - 1]? = some '\n' := by
  have hs := reSearchAux_spec t 0 e h
  simpa using hs

/-- C1: whenever the marker occurs as a literal substring of the document
text, the injector returns the text unchanged with inserted false and the
already-present diagnostic; the guard is the first test of the function, so
this holds for every text, also one with no eligible anchor heading. -/
theorem C1_marker_guard (t nm : List Char) (h : containsSub marker t = true) :
    add_knowledge_section t nm = ⟨t, false, msg_already⟩ :=
  marker_noop t nm h

/-- C1 witness: a document with a level-1 heading and the marker, no
eligible anchor, is returned unchanged with inserted false. -/
theorem C1_marker_guard_witness :
    containsSub marker (("# x\n".data) ++ marker) = true ∧
    add_knowledge_section (("# x\n".data) ++ marker) ("agent-w".data) =
      ⟨("# x\n".data) ++ marker, false, msg_already⟩ :=
  ⟨by decide, C1_marker_guard _ _ (by decide)⟩

/-- C2: when a first injection reports inserted true, running the injector
again on the produced text is a no-op: it reports inserted false and
returns that text identically, because the rendered section embeds the
marker, so the guard of the second run fires. -/
theorem C2_run_twice_is_run_once (t nm : List Char)
    (h : (add_knowledge_section t nm).inserted = true) :
    add_knowledge_section (add_knowledge_section t nm).text nm =
      ⟨(add_knowledge_section t nm).text, false, msg_already⟩ := by
  obtain ⟨hm, e, hr, hres⟩ := inserted_shape t nm h
  rw [hres]
  exact marker_noop _ _ (containsSub_append_right marker _ _
    (containsSub_append_left marker _ _ (marker_in_knowledge nm)))

/-- C2 witness: a concrete successful first run followed by the proved
no-op second run. -/
theorem C2_run_twice_is_run_once_witness :
    (add_knowledge_section ("## Ab\nX\n".data) ("vibe-x".data)).inserted = true ∧
    add_knowledge_section
        (add_knowledge_section ("## Ab\nX\n".data) ("vibe-x".data)).text ("vibe-x".data) =
      ⟨(add_knowledge_section ("## Ab\nX\n".data) ("vibe-x".data)).text,
       false, msg_already⟩ :=
  ⟨by decide, C2_run_twice_is_run_once _ _ (by decide)⟩

/-- C3: failing input for the claim that only a level-2 ATX heading line is
ever selected as the anchor.  The document has no level-2 heading line at
all (its first line merely contains two hashes mid-line), yet the injector
matches inside that line and inserts.  This contradicts the source's own
comment, which says the insertion place is after the first level-2 heading:
the pattern scan is not anchored to line starts. -/
theorem C3_midline_anchor_bug :
    containsSub marker ("x ## Title\nrest\n".data) = false ∧
    ((splitNL ("x ## Title\nrest\n".data)).all fun l => !isLevel2Heading l) = true ∧
    specAnchorEnd ("x ## Title\nrest\n".data) = none ∧
    (add_knowledge_section ("x ## Title\nrest\n".data) ("agent-x".data)).inserted = true ∧
    (add_knowledge_section ("x ## Title\nrest\n".data) ("agent-x".data)).text ≠
      "x ## Title\nrest\n".data :=
  ⟨by decide, by decide, by decide, by decide, by decide⟩

/-- C5: failing input for the claim that a document with no eligible anchor
heading is left unchanged with a no-insertion outcome.  The document's only
heading is level 3, so no eligible anchor exists, yet the unanchored
pattern scan matches inside the level-3 heading line and the injector
mutates the text and reports inserted true. -/
theorem C5_no_anchor_still_inserts :
    containsSub marker ("### Wow\nBody\n".data) = false ∧
    ((splitNL ("### Wow\nBody\n".data)).all fun l => !isLevel2Heading l) = true ∧
    specAnchorEnd ("### Wow\nBody\n".data) = none ∧
    (add_knowledge_section ("### Wow\nBody\n".data) ("agent-x".data)).inserted = true ∧
    (add_knowledge_section ("### Wow\nBody\n".data) ("agent-x".data)).text ≠
      "### Wow\nBody\n".data :=
  ⟨by decide, by decide, by decide, by decide, by decide⟩

/-- C4 counterexample: when the anchor heading is followed by a blank line,
the match extends through the blank line, so the block is not spliced
immediately after the heading line's trailing newline (offset 11, the value
the specification's line scan yields) but after the blank line (offset 12). -/
theorem C4_blank_line_counterexample :
    specAnchorEnd ("# T\n## Sec\n\nBody\n".data) = some 11 ∧
    reSearch ("# T\n## Sec\n\nBody\n".data) = some 12 ∧
    (add_knowledge_section ("# T\n## Sec\n\nBody\n".data) ("agent-x".data)).text =
      ("# T\n## Sec\n\n".data) ++ knowledge_section ("agent-x".data) ++ ("Body\n".data) ∧
    (add_knowledge_section ("# T\n## Sec\n\nBody\n".data) ("agent-x".data)).text ≠
      ("# T\n## Sec\n".data) ++ knowledge_section ("agent-x".data) ++ ("\nBody\n".data) :=
  ⟨by decide, by decide, rfl, by decide⟩

/-- C4 amended: when injection occurs the block is spliced exactly at the
end offset of the first pattern match, an offset that always sits
immediately after a newline character; when the line after the anchor
heading is non-blank this is the offset right after the heading's trailing
newline (as in the end-to-end scenario below), but when the anchor heading
is followed by a blank line the match extends through it and the splice
lands after the blank line. -/
theorem C4_insertion_at_match_end :
    (∀ (t nm : List Char) (e : Nat),
      containsSub marker t = false → reSearch t = some e →
      add_knowledge_section t nm =
        ⟨t.take e ++ knowledge_section nm ++ t.drop e, true, msg_added⟩ ∧
      2 ≤ e ∧ e ≤ t.length ∧ t[e - 1]? = some '\n') ∧
    add_knowledge_section ("# Title\n## Section\nBody text\n".data) ("agent-x".data) =
      ⟨("# Title\n## Section\n".data) ++ knowledge_section ("agent-x".data) ++
        ("Body text\n".data), true, msg_added⟩ := by
  constructor
  · intro t nm e hm hr
    exact ⟨by simp [add_knowledge_section, hm, hr], reSearch_end_newline t e hr⟩
  · rfl

/-- C4 witness: the general part of the amended statement applied to the
end-to-end document of the specification. -/
theorem C4_insertion_at_match_end_witness :
    containsSub marker ("# Title\n## Section\nBody text\n".data) = false ∧
    reSearch ("# Title\n## Section\nBody text\n".data) = some 19 ∧
    (add_knowledge_section ("# Title\n## Section\nBody text\n".data) ("agent-y".data) =
      ⟨("# Title\n## Section\nBody text\n".data).take 19 ++
        knowledge_section ("agent-y".data) ++
        ("# Title\n## Section\nBody text\n".data).drop 19, true, msg_added⟩ ∧
      2 ≤ 19 ∧ 19 ≤ ("# Title\n## Section\nBody text\n".data).length ∧
      ("# Title\n## Section\nBody text\n".data)[19 - 1]? = some '\n') :=
  ⟨by decide, by decide,
   C4_insertion_at_match_end.1 _ ("agent-y".data) 19 (by decide) (by decide)⟩

/-- C6: whenever injection succeeds the output is the input up to the
insertion offset, then the template with the agent name substituted into
each of its three placeholder occurrences, then the rest of the input, so
every character of the original document survives in order. -/
theorem C6_splice_frame (t nm : List Char)
    (h : (add_knowledge_section t nm).inserted = true) :
    ∃ pre suf, t = pre ++ suf ∧
      (add_knowledge_section t nm).text =
        pre ++ (tmplA ++ nm ++ tmplB ++ nm ++ tmplC ++ nm ++ tmplD) ++ suf := by
  obtain ⟨hm, e, hr, hres⟩ := inserted_shape t nm h
  refine ⟨t.take e, t.drop e, (List.take_append_drop e t).symm, ?_⟩
  rw [hres]
  rfl

/-- C6 witness: the frame property at a concrete successful injection. -/
theorem C6_splice_frame_witness :
    (add_knowledge_section ("## Tit\nbody\n".data) ("vibe-z".data)).inserted = true ∧
    ∃ pre suf, "## Tit\nbody\n".data = pre ++ suf ∧
      (add_knowledge_section ("## Tit\nbody\n".data) ("vibe-z".data)).text =
        pre ++ (tmplA ++ "vibe-z".data ++ tmplB ++ "vibe-z".data ++ tmplC ++
          "vibe-z".data ++ tmplD) ++ suf :=
  ⟨by decide, C6_splice_frame _ _ (by decide)⟩

/-- C7: the already-present outcome and the no-insertion-point outcome both
return inserted false, but the diagnostics the function reports differ, so
the two skip reasons are observably distinguished on a concrete pair of
inputs, one producing each outcome. -/
theorem C7_outcomes_distinguished :
    (add_knowledge_section marker ("agent-x".data)).inserted = false ∧
    (add_knowledge_section ("# Just a title\n".data) ("agent-x".data)).inserted = false ∧
    (add_knowledge_section marker ("agent-x".data)).msg = msg_already ∧
    (add_knowledge_section ("# Just a title\n".data) ("agent-x".data)).msg = msg_no_place ∧
    msg_already ≠ msg_no_place :=
  ⟨by decide, by decide, by decide, by decide, by decide⟩

/-- C10: a document whose only level-2 heading line has a one-character
title and is followed by a non-blank line defeats the pattern (which needs
two title characters before the newline when the next line is non-blank):
the scan finds nothing and the injector reports the no-insertion outcome,
leaving the text unchanged, although a level-2 heading line exists. -/
theorem C10_one_char_title_no_anchor :
    containsSub marker ("# A\n## B\nBody\n".data) = false ∧
    ((splitNL ("# A\n## B\nBody\n".data)).any isLevel2Heading) = true ∧
    reSearch ("# A\n## B\nBody\n".data) = none ∧
    add_knowledge_section ("# A\n## B\nBody\n".data) ("agent-x".data) =
      ⟨"# A\n## B\nBody\n".data, false, msg_no_place⟩ :=
  ⟨by decide, by decide, by decide, by decide⟩

lemma runBatch_eq : ∀ (files : List FileEntry) (acc : Nat),
    runBatch acc files = (files.map specBatchStep, acc + specInsertCount files)
  | [], acc => by simp [runBatch, specInsertCount]
  | e :: rest, acc => by
    cases hc : e.content with
    | none =>
      have ih := runBatch_eq rest acc
      simp [runBatch, hc, ih, specBatchStep, specInsertCount, List.countP_cons]
    | some c =>
      by_cases hi : (add_knowledge_section c (stripMd e.name)).inserted = true
      · have ih := runBatch_eq rest (acc + 1)
        simp [runBatch, hc, hi, ih, specBatchStep, specInsertCount, List.countP_cons]
        omega
      · have ih := runBatch_eq rest acc
        simp [runBatch, hc, hi, ih, specBatchStep, specInsertCount, List.countP_cons]

/-- C8: the batch driver visits every listed document (the output list is
the entrywise image of the input list, so nothing after a failed document
is skipped), persists new text exactly for the entries whose injection
returned true, and the reported count is exactly the number of such
entries. -/
theorem C8_batch_driver (files : List FileEntry) :
    mainBatch files = (files.map specBatchStep, specInsertCount files) ∧
    (mainBatch files).1.length = files.length := by
  have h := runBatch_eq files 0
  refine ⟨by simpa using h, ?_⟩
  rw [mainBatch, h]
  simp

lemma isWs_not_hash (c : Char) (h : isWs c = true) : ¬(c = '#') := by
  intro hc
  subst hc
  simp [isWs] at h

lemma trimRight_cons (c : Char) (t : List Char) :
    trimRight (c :: t) = match trimRight t with
      | [] => if isWs c = true then [] else [c]
      | x :: xs => c :: x :: xs := rfl

lemma dropWhile_head_ws : ∀ (l : List Char) (c : Char),
    (l.dropWhile isWs).head? = some c → isWs c = false := by
  intro l
  induction l with
  | nil => intro c h; simp [List.dropWhile] at h
  | cons d t ih =>
    intro c h
    by_cases hd : isWs d = true
    · rw [List.dropWhile_cons_of_pos hd] at h
      exact ih c h
    · rw [List.dropWhile_cons_of_neg hd] at h
      simp only [List.head?_cons, Option.some.injEq] at h
      subst h
      simpa using hd

lemma noTwoWs_tail (c : Char) (t : List Char) (h : noTwoWs (c :: t) = true) :
    noTwoWs t = true := by
  cases t with
  | nil => rfl
  | cons d t' =>
    simp only [noTwoWs, Bool.and_eq_true] at h
    exact h.2

lemma noTwoWs_pair (c d : Char) (t : List Char)
    (h : noTwoWs (c :: d :: t) = true) : (isWs c && isWs d) = false := by
  simp only [noTwoWs, Bool.and_eq_true, Bool.not_eq_true'] at h
  exact h.1

lemma noTwoWs_cons_of (c : Char) (t : List Char) (h1 : noTwoWs t = true)
    (h2 : ∀ d, t.head? = some d → (isWs c && isWs d) = false) :
    noTwoWs (c :: t) = true := by
  cases t with
  | nil => rfl
  | cons d t' =>
    simp only [noTwoWs, Bool.and_eq_true, Bool.not_eq_true']
    exact ⟨h2 d rfl, h1⟩

lemma collapseWs_head_ws (l : List Char) (c : Char)
    (h : (collapseWs l).head? = some c) (hws : isWs c = true) :
    ∃ d, l.head? = some d ∧ isWs d = true := by
  cases l with
  | nil => simp [collapseWs] at h
  | cons a t =>
    by_cases hc : (isWs a && t.head?.any isWs) = true
    · refine ⟨a, rfl, ?_⟩
      rw [Bool.and_eq_true] at hc
      exact hc.1
    · rw [Bool.not_eq_true] at hc
      simp only [collapseWs, hc, Bool.false_eq_true, if_false,
        List.head?_cons, Option.some.injEq] at h
      subst h
      exact ⟨a, rfl, hws⟩

lemma noTwoWs_collapseWs : ∀ l : List Char, noTwoWs (collapseWs l) = true := by
  intro l
  induction l using collapseWs.induct with
  | case1 => simp [collapseWs, noTwoWs]
  | case2 c t h ih =>
    simp only [collapseWs, h, if_true]
    apply noTwoWs_cons_of _ _ ih
    intro d hd
    cases hwd : isWs d with
    | false => simp [hwd]
    | true =>
      obtain ⟨d', hd', hwd'⟩ := collapseWs_head_ws _ _ hd hwd
      rw [dropWhile_head_ws t d' hd'] at hwd'
      exact absurd hwd' (by simp)
  | case3 c t h ih =>
    rw [Bool.not_eq_true] at h
    simp only [collapseWs, h, Bool.false_eq_true, if_false]
    apply noTwoWs_cons_of _ _ ih
    intro d hd
    cases hwd : isWs d with
    | false => simp [hwd]
    | true =>
      obtain ⟨d', hd', hwd'⟩ := collapseWs_head_ws _ _ hd hwd
      have hany : t.head?.any isWs = true := by rw [hd']; exact hwd'
      cases hwc : isWs c with
      | false => simp [hwc]
      | true => rw [hwc, hany] at h; simp at h

lemma collapseWs_fixed : ∀ l : List Char, noTwoWs l = true → collapseWs l = l := by
  intro l
  induction l using collapseWs.induct with
  | case1 => intro _; simp [collapseWs]
  | case2 c t h ih =>
    intro hn
    exfalso
    rw [Bool.and_eq_true] at h
    obtain ⟨hwc, h2⟩ := h
    cases t with
    | nil => simp [Option.any] at h2
    | cons d t' =>
      have h2' : isWs d = true := h2
      have hp := noTwoWs_pair c d t' hn
      rw [hwc, h2'] at hp
      simp at hp
  | case3 c t h ih =>
    intro hn
    rw [Bool.not_eq_true] at h
    simp only [collapseWs, h, Bool.false_eq_true, if_false]
    rw [ih (noTwoWs_tail c t hn)]

lemma collapseWsAll_head_ws (l : List Char) (c : Char)
    (h : (collapseWsAll l).head? = some c) (hws : isWs c = true) :
    ∃ d, l.head? = some d ∧ isWs d = true := by
  cases l with
  | nil => simp [collapseWsAll] at h
  | cons a t =>
    by_cases hc : isWs a = true
    · exact ⟨a, rfl, hc⟩
    · rw [Bool.not_eq_true] at hc
      simp only [collapseWsAll, hc, Bool.false_eq_true, if_false,
        List.head?_cons, Option.some.injEq] at h
      subst h
      exact ⟨a, rfl, hws⟩

lemma noTwoWs_collapseWsAll : ∀ l : List Char, noTwoWs (collapseWsAll l) = true := by
  intro l
  induction l using collapseWsAll.induct with
  | case1 => simp [collapseWsAll, noTwoWs]
  | case2 c t h ih =>
    simp only [collapseWsAll, h, if_true]
    apply noTwoWs_cons_of _ _ ih
    intro d hd
    cases hwd : isWs d with
    | false => simp [hwd]
    | true =>
      obtain ⟨d', hd', hwd'⟩ := collapseWsAll_head_ws _ _ hd hwd
      rw [dropWhile_head_ws t d' hd'] at hwd'
      exact absurd hwd' (by simp)
  | case3 c t h ih =>
    rw [Bool.not_eq_true] at h
    simp only [collapseWsAll, h, Bool.false_eq_true, if_false]
    apply noTwoWs_cons_of _ _ ih
    intro d hd
    simp [h]

lemma wsSpace_collapseWsAll : ∀ (l : List Char) (c : Char),
    c ∈ collapseWsAll l → isWs c = true → c = ' ' := by
  intro l
  induction l using collapseWsAll.induct with
  | case1 => intro c hc; simp [collapseWsAll] at hc
  | case2 a t h ih =>
    intro c hc hws
    simp only [collapseWsAll, h, if_true, List.mem_cons] at hc
    rcases hc with hc | hc
    · exact hc
    · exact ih c hc hws
  | case3 a t h ih =>
    intro c hc hws
    rw [Bool.not_eq_true] at h
    simp only [collapseWsAll, h, Bool.false_eq_true, if_false, List.mem_cons] at hc
    rcases hc with hc | hc
    · subst hc; rw [hws] at h; simp at h
    · exact ih c hc hws

lemma collapseWsAll_fixed : ∀ l : List Char, noTwoWs l = true →
    (∀ c ∈ l, isWs c = true → c = ' ') → collapseWsAll l = l := by
  intro l
  induction l using collapseWsAll.induct with
  | case1 => intro _ _; simp [collapseWsAll]
  | case2 c t h ih =>
    intro hn hsp
    have hdt : t.dropWhile isWs = t := by
      cases t with
      | nil => rfl
      | cons d t' =>
        have hp := noTwoWs_pair c d t' hn
        rw [h] at hp
        simp only [Bool.true_and] at hp
        exact List.dropWhile_cons_of_neg (by simp [hp])
    rw [hdt] at ih
    have hc : c = ' ' := hsp c (by simp) h
    simp only [collapseWsAll, h, if_true, hdt]
    rw [ih (noTwoWs_tail c t hn) (fun d hd hw => hsp d (by simp [hd]) hw), hc]
  | case3 c t h ih =>
    intro hn hsp
    rw [Bool.not_eq_true] at h
    simp only [collapseWsAll, h, Bool.false_eq_true, if_false]
    rw [ih (noTwoWs_tail c t hn) (fun d hd hw => hsp d (by simp [hd]) hw)]

lemma mem_collapseWs : ∀ (l : List Char) (a : Char),
    a ∈ collapseWs l → a ∈ l ∨ a = ' ' := by
  intro l
  induction l using collapseWs.induct with
  | case1 => intro a ha; simp [collapseWs] at ha
  | case2 c t h ih =>
    intro a ha
    simp only [collapseWs, h, if_true, List.mem_cons] at ha
    rcases ha with ha | ha
    · right; exact ha
    · rcases ih a ha with ha' | ha'
      · left; exact List.mem_cons_of_mem c ((List.dropWhile_sublist isWs).subset ha')
      · right; exact ha'
  | case3 c t h ih =>
    intro a ha
    rw [Bool.not_eq_true] at h
    simp only [collapseWs, h, Bool.false_eq_true, if_false, List.mem_cons] at ha
    rcases ha with ha | ha
    · left; simp [ha]
    · rcases ih a ha with ha' | ha'
      · left; simp [ha']
      · right; exact ha'

lemma mem_collapseWsAll : ∀ (l : List Char) (a : Char),
    a ∈ collapseWsAll l → a ∈ l ∨ a = ' ' := by
  intro l
  induction l using collapseWsAll.induct with
  | case1 => intro a ha; simp [collapseWsAll] at ha
  | case2 c t h ih =>
    intro a ha
    simp only [collapseWsAll, h, if_true, List.mem_cons] at ha
    rcases ha with ha | ha
    · right; exact ha
    · rcases ih a ha with ha' | ha'
      · left; exact List.mem_cons_of_mem c ((List.dropWhile_sublist isWs).subset ha')
      · right; exact ha'
  | case3 c t h ih =>
    intro a ha
    rw [Bool.not_eq_true] at h
    simp only [collapseWsAll, h, Bool.false_eq_true, if_false, List.mem_cons] at ha
    rcases ha with ha | ha
    · left; simp [ha]
    · rcases ih a ha with ha' | ha'
      · left; simp [ha']
      · right; exact ha'

lemma mem_trimRight : ∀ (l : List Char) (a : Char), a ∈ trimRight l → a ∈ l := by
  intro l
  induction l with
  | nil => intro a ha; simp [trimRight] at ha
  | cons c t ih =>
    intro a ha
    rw [trimRight_cons] at ha
    cases ht : trimRight t with
    | nil =>
      rw [ht] at ha
      by_cases hc : isWs c = true
      · simp [hc] at ha
      · rw [Bool.not_eq_true] at hc
        simp only [hc, Bool.false_eq_true, if_false, List.mem_singleton] at ha
        simp [ha]
    | cons x xs =>
      rw [ht] at ha
      simp only [List.mem_cons] at ha
      rcases ha with ha | ha
      · simp [ha]
      · exact List.mem_cons_of_mem c (ih a (by rw [ht]; simpa using ha))

lemma trimRight_head : ∀ (l : List Char) (x : Char) (xs : List Char),
    trimRight l = x :: xs → l.head? = some x := by
  intro l
  cases l with
  | nil => intro x xs h; simp [trimRight] at h
  | cons c t =>
    intro x xs h
    rw [trimRight_cons] at h
    cases ht : trimRight t with
    | nil =>
      rw [ht] at h
      by_cases hc : isWs c = true
      · simp [hc] at h
      · rw [Bool.not_eq_true] at hc
        simp only [hc, Bool.false_eq_true, if_false, List.cons.injEq] at h
        simp [h.1]
    | cons y ys =>
      rw [ht] at h
      simp only [List.cons.injEq] at h
      simp [h.1]

lemma noTwoWs_trimRight : ∀ l : List Char, noTwoWs l = true →
    noTwoWs (trimRight l) = true := by
  intro l
  induction l with
  | nil => intro _; rfl
  | cons c t ih =>
    intro hn
    rw [trimRight_cons]
    cases ht : trimRight t with
    | nil =>
      by_cases hc : isWs c = true
      · simp [hc, noTwoWs]
      · rw [Bool.not_eq_true] at hc
        simp [hc, noTwoWs]
    | cons x xs =>
      apply noTwoWs_cons_of
      · rw [← ht]; exact ih (noTwoWs_tail c t hn)
      · intro d hd
        simp only [List.head?_cons, Option.some.injEq] at hd
        subst hd
        have hhx := trimRight_head t x xs ht
        cases t with
        | nil => simp at hhx
        | cons y t' =>
          simp only [List.head?_cons, Option.some.injEq] at hhx
          rw [← hhx]
          exact noTwoWs_pair c y t' hn

lemma trimRight_idem : ∀ l : List Char, trimRight (trimRight l) = trimRight l := by
  intro l
  induction l with
  | nil => rfl
  | cons c t ih =>
    cases ht : trimRight t with
    | nil =>
      rw [trimRight_cons, ht]
      by_cases hc : isWs c = true
      · simp [hc, trimRight]
      · rw [Bool.not_eq_true] at hc
        simp [hc, trimRight_cons, trimRight]
    | cons x xs =>
      have hxx : trimRight (x :: xs) = x :: xs := by rw [← ht, ih, ht]
      have h1 : trimRight (c :: t) = c :: x :: xs := by rw [trimRight_cons, ht]
      rw [h1, trimRight_cons, hxx]

lemma noTwoWs_dropWhile : ∀ l : List Char, noTwoWs l = true →
    noTwoWs (l.dropWhile isWs) = true := by
  intro l
  induction l with
  | nil => intro _; rfl
  | cons c t ih =>
    intro hn
    by_cases hc : isWs c = true
    · rw [List.dropWhile_cons_of_pos hc]
      exact ih (noTwoWs_tail c t hn)
    · rw [List.dropWhile_cons_of_neg hc]
      exact hn

lemma trimWs_head_not_ws (l : List Char) (x : Char) (xs : List Char)
    (h : trimWs l = x :: xs) : isWs x = false := by
  have := trimRight_head (l.dropWhile isWs) x xs h
  exact dropWhile_head_ws l x this

lemma trimWs_of_trimWs (Y m : List Char) (hm : m = trimWs Y) : trimWs m = m := by
  have hdw : m.dropWhile isWs = m := by
    cases hm' : m with
    | nil => rfl
    | cons x xs =>
      rw [hm'] at hm
      exact List.dropWhile_cons_of_neg (by simp [trimWs_head_not_ws Y x xs hm.symm])
  rw [trimWs, hdw, hm, trimWs, trimRight_idem]

lemma headLevelAux_collapseWs : ∀ (l : List Char) (k : Nat),
    headLevelAux k (collapseWs l) = headLevelAux k l := by
  intro l
  induction l using collapseWs.induct with
  | case1 => intro k; simp [collapseWs]
  | case2 c t h ih =>
    intro k
    have hx : collapseWs (c :: t) = ' ' :: collapseWs (t.dropWhile isWs) := by
      simp only [collapseWs, h, if_true]
    have hwc : isWs c = true := by
      rw [Bool.and_eq_true] at h
      exact h.1
    have hc : ¬(c = '#') := isWs_not_hash c hwc
    have hsp : ¬((' ' : Char) = '#') := by decide
    rw [hx]
    simp only [isWs, Bool.or_eq_true, beq_iff_eq] at hwc
    simp [headLevelAux, hc, hsp, hwc, isWs]
  | case3 c t h ih =>
    intro k
    rw [Bool.not_eq_true] at h
    have hx : collapseWs (c :: t) = c :: collapseWs t := by
      simp only [collapseWs, h, Bool.false_eq_true, if_false]
    rw [hx]
    by_cases hc : c = '#'
    · subst hc
      simp [headLevelAux, ih (k + 1)]
    · simp [headLevelAux, hc]

lemma isHeading_collapseWs (l : List Char) :
    isHeading (collapseWs l) = isHeading l := by
  simp [isHeading, headLevelAux_collapseWs]

lemma normLine_nil : normLine [] = [] := by
  have h : isHeading [] = false := by simp [isHeading, headLevelAux]
  simp [normLine, h, collapseWs]

lemma normLine_idem (l : List Char) : normLine (normLine l) = normLine l := by
  by_cases hh : isHeading l = true
  · have hnY : noTwoWs (collapseWsAll l) = true := noTwoWs_collapseWsAll l
    have hnZ : noTwoWs (trimWs (collapseWsAll l)) = true :=
      noTwoWs_trimRight _ (noTwoWs_dropWhile _ hnY)
    have hspZ : ∀ c ∈ trimWs (collapseWsAll l), isWs c = true → c = ' ' := by
      intro c hc hw
      have h1 : c ∈ (collapseWsAll l).dropWhile isWs := mem_trimRight _ c hc
      have h2 : c ∈ collapseWsAll l := (List.dropWhile_sublist isWs).subset h1
      exact wsSpace_collapseWsAll l c h2 hw
    have hm : normLine l = trimWs (collapseWsAll l) := by
      simp only [normLine, if_pos hh]
      exact collapseWs_fixed _ hnZ
    rw [hm]
    by_cases hz : isHeading (trimWs (collapseWsAll l)) = true
    · simp only [normLine, if_pos hz]
      rw [collapseWsAll_fixed _ hnZ hspZ, trimWs_of_trimWs (collapseWsAll l) _ rfl]
      exact collapseWs_fixed _ hnZ
    · simp only [normLine, if_neg hz]
      exact collapseWs_fixed _ hnZ
  · rw [Bool.not_eq_true] at hh
    have hm : normLine l = collapseWs l := by
      simp only [normLine, hh, Bool.false_eq_true, if_false]
    rw [hm]
    have hh2 : isHeading (collapseWs l) = false := by
      rw [isHeading_collapseWs]; exact hh
    simp only [normLine, hh2, Bool.false_eq_true, if_false]
    exact collapseWs_fixed _ (noTwoWs_collapseWs l)

lemma no_nl_normLine (l : List Char) (h : ('\n' : Char) ∉ l) :
    ('\n' : Char) ∉ normLine l := by
  intro hmem
  simp only [normLine] at hmem
  rcases mem_collapseWs _ _ hmem with hm | hm
  · by_cases hh : isHeading l = true
    · rw [if_pos hh] at hm
      have h1 := mem_trimRight _ _ hm
      have h2 := (List.dropWhile_sublist isWs).subset h1
      rcases mem_collapseWsAll _ _ h2 with h3 | h3
      · exact h h3
      · exact absurd h3 (by decide)
    · rw [if_neg hh] at hm
      exact h hm
  · exact absurd hm (by decide)

lemma pass1_fixed_eq : ∀ (P : List (List Char)) (b : Bool),
    (∀ x ∈ P, normLine x = x) → pass1Fixed b P = true → pass1 b P = P := by
  intro P
  induction P with
  | nil => intro b _ _; rfl
  | cons l rest ih =>
    intro b hnorm hfix
    simp only [pass1Fixed, Bool.and_eq_true] at hfix
    obtain ⟨h1, h2⟩ := hfix
    have hl : normLine l = l := hnorm l (by simp)
    have hcond : (isHeading13 l && !b) = false := by
      cases hI : isHeading13 l <;> cases b <;> simp_all
    simp only [pass1, hl]
    rw [ih (isBlank l) (fun x hx => hnorm x (by simp [hx])) h2]
    simp [hcond]

lemma collapse_fixed_eq : ∀ (P : List (List Char)) (b : Bool),
    collapseFixed b P = true → collapseBlanks b P = P := by
  intro P
  induction P with
  | nil => intro b _; rfl
  | cons l rest ih =>
    intro b hfix
    simp only [collapseFixed, Bool.and_eq_true] at hfix
    obtain ⟨h1, h2⟩ := hfix
    have hcond : (isBlank l && b) = false := by
      cases hb : isBlank l <;> cases b <;> simp_all
    simp only [collapseBlanks, hcond, Bool.false_eq_true, if_false]
    rw [ih (isBlank l) h2]

lemma pass1Fixed_pass1 : ∀ (L : List (List Char)) (b : Bool),
    pass1Fixed b (pass1 b L) = true := by
  intro L
  induction L with
  | nil => intro b; rfl
  | cons l rest ih =>
    intro b
    by_cases hc : (isHeading13 (normLine l) && !b) = true
    · simp only [pass1, hc, if_true]
      simp only [pass1Fixed, Bool.and_eq_true]
      refine ⟨by simp [isHeading13, headLevelAux], ⟨?_, ih _⟩⟩
      have hb : isBlank ([] : List Char) = true := rfl
      rw [hb]
      simp
    · rw [Bool.not_eq_true] at hc
      simp only [pass1, hc, Bool.false_eq_true, if_false]
      simp only [pass1Fixed, Bool.and_eq_true]
      refine ⟨?_, ih _⟩
      cases hI : isHeading13 (normLine l) <;> cases b <;> simp_all

lemma pass1Fixed_collapse : ∀ (P : List (List Char)) (b c : Bool),
    pass1Fixed b P = true → (c = true → b = true) →
    pass1Fixed b (collapseBlanks c P) = true := by
  intro P
  induction P with
  | nil => intro b c _ _; rfl
  | cons l rest ih =>
    intro b c hfix hcb
    simp only [pass1Fixed, Bool.and_eq_true] at hfix
    obtain ⟨h1, h2⟩ := hfix
    by_cases hd : (isBlank l && c) = true
    · rw [Bool.and_eq_true] at hd
      have hb : b = true := hcb hd.2
      have hcomb : (isBlank l && c) = true := by rw [hd.1, hd.2]; rfl
      simp only [collapseBlanks, hcomb, if_true]
      rw [hd.1] at h2
      rw [hb, hd.2]
      exact ih true true h2 (fun _ => rfl)
    · rw [Bool.not_eq_true] at hd
      simp only [collapseBlanks, hd, Bool.false_eq_true, if_false]
      simp only [pass1Fixed, Bool.and_eq_true]
      exact ⟨h1, ih (isBlank l) (isBlank l) h2 (fun h => h)⟩

lemma collapseFixed_collapse : ∀ (L : List (List Char)) (b : Bool),
    collapseFixed b (collapseBlanks b L) = true := by
  intro L
  induction L with
  | nil => intro b; rfl
  | cons l rest ih =>
    intro b
    by_cases hd : (isBlank l && b) = true
    · simp only [collapseBlanks, hd, if_true]
      exact ih b
    · rw [Bool.not_eq_true] at hd
      simp only [collapseBlanks, hd, Bool.false_eq_true, if_false]
      simp only [collapseFixed, Bool.and_eq_true]
      exact ⟨by simp [hd], ih (isBlank l)⟩

lemma mem_pass1 : ∀ (L : List (List Char)) (b : Bool) (x : List Char),
    x ∈ pass1 b L → x = [] ∨ ∃ l ∈ L, x = normLine l := by
  intro L
  induction L with
  | nil => intro b x hx; simp [pass1] at hx
  | cons l rest ih =>
    intro b x hx
    by_cases hc : (isHeading13 (normLine l) && !b) = true
    · simp only [pass1, hc, if_true, List.mem_cons] at hx
      rcases hx with hx | hx | hx
      · left; exact hx
      · right; exact ⟨l, by simp, hx⟩
      · rcases ih _ _ hx with h | ⟨l', hl', hx'⟩
        · left; exact h
        · right; exact ⟨l', by simp [hl'], hx'⟩
    · rw [Bool.not_eq_true] at hc
      simp only [pass1, hc, Bool.false_eq_true, if_false, List.mem_cons] at hx
      rcases hx with hx | hx
      · right; exact ⟨l, by simp, hx⟩
      · rcases ih _ _ hx with h | ⟨l', hl', hx'⟩
        · left; exact h
        · right; exact ⟨l', by simp [hl'], hx'⟩

lemma mem_collapseBlanks : ∀ (L : List (List Char)) (b : Bool) (x : List Char),
    x ∈ collapseBlanks b L → x ∈ L := by
  intro L
  induction L with
  | nil => intro b x hx; simp [collapseBlanks] at hx
  | cons l rest ih =>
    intro b x hx
    by_cases hd : (isBlank l && b) = true
    · simp only [collapseBlanks, hd, if_true] at hx
      exact List.mem_cons_of_mem l (ih b x hx)
    · rw [Bool.not_eq_true] at hd
      simp only [collapseBlanks, hd, Bool.false_eq_true, if_false,
        List.mem_cons] at hx
      rcases hx with hx | hx
      · simp [hx]
      · exact List.mem_cons_of_mem l (ih (isBlank l) x hx)

lemma pass1_cons_shape (b : Bool) (l : List Char) (rest : List (List Char)) :
    ∃ y ys, pass1 b (l :: rest) = y :: ys := by
  by_cases hc : (isHeading13 (normLine l) && !b) = true
  · exact ⟨[], normLine l :: pass1 (isBlank (normLine l)) rest,
      by simp only [pass1, hc, if_true]⟩
  · rw [Bool.not_eq_true] at hc
    exact ⟨normLine l, pass1 (isBlank (normLine l)) rest,
      by simp only [pass1, hc, Bool.false_eq_true, if_false]⟩

lemma collapseBlanks_false_cons (x : List Char) (xs : List (List Char)) :
    collapseBlanks false (x :: xs) = x :: collapseBlanks (isBlank x) xs := by
  simp [collapseBlanks]

lemma splitNLx_cons_nl (t : List Char) :
    splitNLx ('\n' :: t) = ([], (splitNLx t).1 :: (splitNLx t).2) := by
  simp [splitNLx]

lemma splitNLx_cons_other (c : Char) (t : List Char) (hc : ¬(c = '\n')) :
    splitNLx (c :: t) = (c :: (splitNLx t).1, (splitNLx t).2) := by
  simp [splitNLx, hc]

lemma splitNLx_no_nl : ∀ t : List Char,
    ('\n' : Char) ∉ (splitNLx t).1 ∧ ∀ l ∈ (splitNLx t).2, ('\n' : Char) ∉ l := by
  intro t
  induction t with
  | nil => simp [splitNLx]
  | cons c t ih =>
    by_cases hc : c = '\n'
    · subst hc
      rw [splitNLx_cons_nl]
      refine ⟨by simp, ?_⟩
      intro l hl
      rcases List.mem_cons.mp hl with hl | hl
      · subst hl; exact ih.1
      · exact ih.2 l hl
    · rw [splitNLx_cons_other c t hc]
      refine ⟨?_, ih.2⟩
      intro hm
      rcases List.mem_cons.mp hm with hm | hm
      · exact hc hm.symm
      · exact ih.1 hm

lemma splitNLx_of_no_nl : ∀ l : List Char, ('\n' : Char) ∉ l →
    splitNLx l = (l, []) := by
  intro l
  induction l with
  | nil => intro _; rfl
  | cons c t ih =>
    intro h
    have hc : ¬(c = '\n') := fun hh => h (by simp [hh])
    have ht : ('\n' : Char) ∉ t := fun hh => h (by simp [hh])
    simp [splitNLx, hc, ih ht]

lemma splitNLx_append : ∀ (h X : List Char), ('\n' : Char) ∉ h →
    splitNLx (h ++ '\n' :: X) = (h, (splitNLx X).1 :: (splitNLx X).2) := by
  intro h
  induction h with
  | nil => intro X _; simp [splitNLx]
  | cons c hs ih =>
    intro X hnm
    have hc : ¬(c = '\n') := fun hh => hnm (by simp [hh])
    have ht : ('\n' : Char) ∉ hs := fun hh => hnm (by simp [hh])
    simp [splitNLx, hc, ih X ht]

lemma splitNL_joinNL : ∀ (ls : List (List Char)), ls ≠ [] →
    (∀ l ∈ ls, ('\n' : Char) ∉ l) → splitNL (joinNL ls) = ls
  | [] => by intro h _; exact absurd rfl h
  | [h] => by
    intro _ hnl
    show splitNL h = [h]
    rw [splitNL, splitNLx_of_no_nl h (hnl h (by simp))]
  | h :: l2 :: ls => by
    intro _ hnl
    have hj : joinNL (h :: l2 :: ls) = h ++ '\n' :: joinNL (l2 :: ls) := rfl
    have ih := splitNL_joinNL (l2 :: ls) (by simp)
      (fun l hl => hnl l (by simp [List.mem_cons] at hl ⊢; tauto))
    rw [splitNL] at ih ⊢
    rw [hj, splitNLx_append h _ (hnl h (by simp))]
    simpa using ih

lemma format_idem_all (t : List Char) : format (format t) = format t := by
  have hL : ∀ l ∈ splitNL t, ('\n' : Char) ∉ l := by
    intro l hl
    rcases List.mem_cons.mp hl with h | h
    · subst h; exact (splitNLx_no_nl t).1
    · exact (splitNLx_no_nl t).2 l h
  have hmemP : ∀ x ∈ collapseBlanks false (pass1 true (splitNL t)),
      x ∈ pass1 true (splitNL t) := fun x hx => mem_collapseBlanks _ _ _ hx
  have hnormP : ∀ x ∈ collapseBlanks false (pass1 true (splitNL t)),
      normLine x = x := by
    intro x hx
    rcases mem_pass1 _ _ _ (hmemP x hx) with h | ⟨l, _, hx'⟩
    · subst h; exact normLine_nil
    · subst hx'; exact normLine_idem l
  have hnlP : ∀ x ∈ collapseBlanks false (pass1 true (splitNL t)),
      ('\n' : Char) ∉ x := by
    intro x hx
    rcases mem_pass1 _ _ _ (hmemP x hx) with h | ⟨l, hl, hx'⟩
    · subst h; simp
    · subst hx'; exact no_nl_normLine l (hL l hl)
  have hne : collapseBlanks false (pass1 true (splitNL t)) ≠ [] := by
    obtain ⟨y, ys, hys⟩ := pass1_cons_shape true (splitNLx t).1 (splitNLx t).2
    show collapseBlanks false (pass1 true ((splitNLx t).1 :: (splitNLx t).2)) ≠ []
    rw [hys, collapseBlanks_false_cons]
    simp
  have hfix1 : pass1Fixed true (collapseBlanks false (pass1 true (splitNL t))) = true :=
    pass1Fixed_collapse _ true false (pass1Fixed_pass1 _ true) (by simp)
  have hp1 : pass1 true (collapseBlanks false (pass1 true (splitNL t))) =
      collapseBlanks false (pass1 true (splitNL t)) :=
    pass1_fixed_eq _ true hnormP hfix1
  have hcb : collapseBlanks false (collapseBlanks false (pass1 true (splitNL t))) =
      collapseBlanks false (pass1 true (splitNL t)) :=
    collapse_fixed_eq _ false (collapseFixed_collapse _ false)
  have hsj : splitNL (joinNL (collapseBlanks false (pass1 true (splitNL t)))) =
      collapseBlanks false (pass1 true (splitNL t)) :=
    splitNL_joinNL _ hne hnlP
  have hstep : format (format t) =
      joinNL (collapseBlanks false (pass1 true
        (splitNL (joinNL (collapseBlanks false (pass1 true (splitNL t))))))) := rfl
  rw [hstep, hsj, hp1, hcb]
  rfl

lemma format_nil : format [] = [] := by
  have h0 : pass1 true (splitNL []) = [[]] := by
    show pass1 true [[]] = [[]]
    simp [pass1, normLine_nil]
  have h1 : format [] = joinNL (collapseBlanks false (pass1 true (splitNL []))) := rfl
  rw [h1, h0, collapseBlanks_false_cons]
  simp [collapseBlanks, joinNL]

/-- C9: the formatter is a total function of the document text, a plain
Lean function defined for every input including the empty string, and it is
idempotent: formatting an already formatted text changes nothing, for every
input text. -/
theorem C9_format_total_idem :
    format [] = [] ∧ ∀ t : List Char, format (format t) = format t :=
  ⟨format_nil, format_idem_all⟩
